import Mathlib

/-!
Shallow embedding of the n-gram performance aggregation and classification
engine of the `advantage-poc` repository
(`src/app/ngram_analyzer.py` and `src/app/ad_analyzer.py`).

Numbers: the Python code accumulates metrics in `float` cells and divides
them; the embedding uses exact rationals (`ℚ`) for this arithmetic.

Strings and tokenization: `nltk.word_tokenize` is a library the repository
calls but does not contain; it is modelled from the spec (§4.1) as a
conventional word tokenizer.  Everything else is translated directly from
the repository's source.
-/

unseal Rat.add Rat.mul Rat.inv Rat.sub Rat.ofScientific

namespace Advantage

/-- A cell of the `Search term` column: either a string or Python `None`. -/
inductive PyVal where
  | str (s : String)
  | null
  deriving DecidableEq, Repr

/-- Embeds Python `str(x)` as applied in `generate_ngrams`:
the textual representation of a string is itself, and `str(None)` is the
four-character string `"None"`. -/
def pyStr : PyVal → String
  | .str s => s
  | .null => "None"

/-- Modelled from the spec: `nltk.word_tokenize` is not part of this
repository.  Per §4.1 it is a conventional word tokenizer: whitespace and
punctuation are token boundaries, maximal alphanumeric runs form word
tokens, and punctuation characters are preserved as tokens of their own.
`cur` holds the characters of the alphanumeric run in progress, reversed. -/
def word_tokenize_aux : List Char → List Char → List String
  | [], cur => if cur = [] then [] else [⟨cur.reverse⟩]
  | c :: cs, cur =>
    if c.isWhitespace then
      (if cur = [] then [] else [⟨cur.reverse⟩]) ++ word_tokenize_aux cs []
    else if c.isAlphanum then
      word_tokenize_aux cs (c :: cur)
    else
      (if cur = [] then [] else [⟨cur.reverse⟩]) ++ ⟨[c]⟩ :: word_tokenize_aux cs []

/-- Modelled from the spec: `nltk.word_tokenize` (see `word_tokenize_aux`). -/
def word_tokenize (s : String) : List String :=
  word_tokenize_aux s.data []

/-- Embeds Python `str.lower()`: lowercase every character. -/
def lower (s : String) : String := ⟨s.data.map Char.toLower⟩

/-- Embeds `" ".join(gram)`: join the tokens with single spaces. -/
def joinSpace : List String → String
  | [] => ""
  | [t] => t
  | t :: ts => ⟨t.data ++ ' ' :: (joinSpace ts).data⟩

/-- Embeds `nltk.ngrams(tokens, n)`: all contiguous windows of length `n`,
in order of their starting position. -/
def windows (tokens : List String) (n : Nat) : List (List String) :=
  (List.range (tokens.length + 1 - n)).map (fun i => (tokens.drop i).take n)

/-- Embeds `generate_ngrams` from `src/app/ngram_analyzer.py`:
tokenize `str(text)`, lowercase every token, and join each window of `n`
consecutive tokens with single spaces. -/
def generate_ngrams (text : PyVal) (n : Nat) : List String :=
  (windows ((word_tokenize (pyStr text)).map lower) n).map joinSpace

/-- The five additive metric columns of a search-term row
(`Impressions`, `Clicks`, `Cost`, `Conversions`, `Conv. value`). -/
structure Metrics where
  impressions : ℚ
  clicks : ℚ
  cost : ℚ
  conversions : ℚ
  convValue : ℚ
  deriving DecidableEq, Repr

namespace Metrics

protected def add (a b : Metrics) : Metrics :=
  ⟨a.impressions + b.impressions, a.clicks + b.clicks, a.cost + b.cost,
   a.conversions + b.conversions, a.convValue + b.convValue⟩

protected def zero : Metrics := ⟨0, 0, 0, 0, 0⟩

instance : Add Metrics := ⟨Metrics.add⟩
instance : Zero Metrics := ⟨Metrics.zero⟩

instance : AddCommMonoid Metrics where
  add := Metrics.add
  zero := Metrics.zero
  add_assoc a b c := by
    show Metrics.add (Metrics.add a b) c = Metrics.add a (Metrics.add b c)
    simp only [Metrics.add, mk.injEq]
    refine ⟨?_, ?_, ?_, ?_, ?_⟩ <;> ring
  zero_add a := by
    show Metrics.add Metrics.zero a = a
    simp only [Metrics.add, Metrics.zero, zero_add]
  add_zero a := by
    show Metrics.add a Metrics.zero = a
    simp only [Metrics.add, Metrics.zero, add_zero]
  add_comm a b := by
    show Metrics.add a b = Metrics.add b a
    simp only [Metrics.add, mk.injEq]
    refine ⟨?_, ?_, ?_, ?_, ?_⟩ <;> ring
  nsmul := nsmulRec
  nsmul_zero _ := rfl
  nsmul_succ _ _ := rfl

@[simp] theorem add_def (a b : Metrics) :
    a + b = ⟨a.impressions + b.impressions, a.clicks + b.clicks, a.cost + b.cost,
      a.conversions + b.conversions, a.convValue + b.convValue⟩ := rfl

@[simp] theorem zero_impressions : (0 : Metrics).impressions = 0 := rfl
@[simp] theorem zero_clicks : (0 : Metrics).clicks = 0 := rfl
@[simp] theorem zero_cost : (0 : Metrics).cost = 0 := rfl
@[simp] theorem zero_conversions : (0 : Metrics).conversions = 0 := rfl
@[simp] theorem zero_convValue : (0 : Metrics).convValue = 0 := rfl

end Metrics

/-- One row of the search-terms table: the `Search term` cell and the five
metric cells. -/
structure QueryRecord where
  searchTerm : PyVal
  metrics : Metrics
  deriving DecidableEq, Repr

/-- The mutable aggregation state of `analyze_ngrams`:
`perf` embeds the insertion-ordered dict `ngram_performance`
(phrase → accumulated metrics) and `lens` embeds the dict `ngram_lengths`
(phrase → last length written for it). -/
structure AggState where
  perf : List (String × Metrics)
  lens : List (String × Nat)
  deriving DecidableEq, Repr

/-- Embeds `ngram_performance[p][metric] += m[metric]` on a `defaultdict`:
add into the existing entry for `p`, or append a fresh entry at the end. -/
def addPerf : List (String × Metrics) → String → Metrics → List (String × Metrics)
  | [], p, m => [(p, m)]
  | (q, mq) :: rest, p, m =>
    if q = p then (q, mq + m) :: rest else (q, mq) :: addPerf rest p m

/-- Embeds `ngram_lengths[p] = n`: overwrite the entry for `p`, or append a
fresh one at the end. -/
def setLen : List (String × Nat) → String → Nat → List (String × Nat)
  | [], p, n => [(p, n)]
  | (q, nq) :: rest, p, n =>
    if q = p then (q, n) :: rest else (q, nq) :: setLen rest p n

/-- One iteration of the inner `for ngram in ngrams` loop body of
`analyze_ngrams`: record the length and accumulate the row's metrics. -/
def addNgram (st : AggState) (p : String) (n : Nat) (m : Metrics) : AggState :=
  ⟨addPerf st.perf p m, setLen st.lens p n⟩

/-- Run a sequence of `(phrase, length, metrics)` updates in order. -/
def applyUpdates (st : AggState) : List (String × Nat × Metrics) → AggState
  | [] => st
  | (p, n, m) :: rest => applyUpdates (addNgram st p n m) rest

/-- The updates one record produces for the given list of orders, in the
order the nested loops of `analyze_ngrams` perform them. -/
def recordUpdatesOrders (r : QueryRecord) : List Nat → List (String × Nat × Metrics)
  | [] => []
  | n :: ns =>
    (generate_ngrams r.searchTerm n).map (fun p => (p, n, r.metrics))
      ++ recordUpdatesOrders r ns

/-- Embeds Python `range(min_ngram, max_ngram + 1)`. -/
def orderRange (minN maxN : Nat) : List Nat := List.range' minN (maxN + 1 - minN)

/-- All updates of one record: `for n in range(min_ngram, max_ngram + 1)`. -/
def recordUpdates (minN maxN : Nat) (r : QueryRecord) : List (String × Nat × Metrics) :=
  recordUpdatesOrders r (orderRange minN maxN)

/-- All updates of the record collection, in iteration order
(`for index, row in search_terms_df.iterrows()`). -/
def allUpdates (minN maxN : Nat) : List QueryRecord → List (String × Nat × Metrics)
  | [] => []
  | r :: rs => recordUpdates minN maxN r ++ allUpdates minN maxN rs

/-- The accumulation loops of `analyze_ngrams` (lines 67–78 of
`src/app/ngram_analyzer.py`), starting from empty dicts. -/
def aggregate (recs : List QueryRecord) (minN maxN : Nat) : AggState :=
  applyUpdates ⟨[], []⟩ (allUpdates minN maxN recs)

/-- Reading `ngram_performance[p]` with the `defaultdict` default `0`. -/
def lookupPerf : List (String × Metrics) → String → Metrics
  | [], _ => 0
  | (q, m) :: rest, p => if q = p then m else lookupPerf rest p

/-- Reading `ngram_lengths.get(p)`. -/
def lookupLen : List (String × Nat) → String → Option Nat
  | [], _ => none
  | (q, n) :: rest, p => if q = p then some n else lookupLen rest p

/-- Embeds `pandas.Series.replace(0, 1)` applied to a denominator cell. -/
def floorDenom (x : ℚ) : ℚ := if x = 0 then 1 else x

/-- One row of `performance_df` after the derived-metric columns are added
(lines 85–107 of `src/app/ngram_analyzer.py`). -/
structure Row where
  ngram : String
  impressions : ℚ
  clicks : ℚ
  cost : ℚ
  conversions : ℚ
  convValue : ℚ
  length : Option Nat
  ctr : ℚ
  convRate : ℚ
  cpa : ℚ
  roas : ℚ
  deriving DecidableEq, Repr

/-- Build the row of `performance_df` for one `ngram_performance` entry:
attach the `N-Gram Length` column via `ngram_lengths` and compute the four
derived columns with the `replace(0, 1)` denominators. -/
def mkRow (lens : List (String × Nat)) (pm : String × Metrics) : Row where
  ngram := pm.1
  impressions := pm.2.impressions
  clicks := pm.2.clicks
  cost := pm.2.cost
  conversions := pm.2.conversions
  convValue := pm.2.convValue
  length := lookupLen lens pm.1
  ctr := pm.2.clicks / floorDenom pm.2.impressions
  convRate := pm.2.conversions / floorDenom pm.2.clicks
  cpa := pm.2.cost / floorDenom pm.2.conversions
  roas := pm.2.convValue / floorDenom pm.2.cost

/-- `performance_df` of `analyze_ngrams`: one row per `ngram_performance`
entry, in dict insertion order, with length and derived columns attached. -/
def performance_df (st : AggState) : List Row :=
  st.perf.map (mkRow st.lens)

/-- Re-running the Metric Deriver on a row's accumulated sums. -/
def recomputeRow (r : Row) : Row :=
  { r with
    ctr := r.clicks / floorDenom r.impressions
    convRate := r.conversions / floorDenom r.clicks
    cpa := r.cost / floorDenom r.conversions
    roas := r.convValue / floorDenom r.cost }

/-- Sort key of the per-length buckets: `Cost` descending
(`df.sort_values(by='Cost', ascending=False)`). -/
def costRel (a b : Row) : Prop := b.cost ≤ a.cost

instance : DecidableRel costRel := fun a b => inferInstanceAs (Decidable (b.cost ≤ a.cost))

/-- Sort key of the gold nuggets: `ROAS` descending. -/
def roasRel (a b : Row) : Prop := b.roas ≤ a.roas

instance : DecidableRel roasRel := fun a b => inferInstanceAs (Decidable (b.roas ≤ a.roas))

/-- Sort key of the mismatches: `Impressions` descending. -/
def imprRel (a b : Row) : Prop := b.impressions ≤ a.impressions

instance : DecidableRel imprRel := fun a b => inferInstanceAs (Decidable (b.impressions ≤ a.impressions))

/-- Embeds `analyze_ngrams` from `src/app/ngram_analyzer.py`: accumulate,
return `{}` when nothing was generated, otherwise build `performance_df`
and split it into one bucket per order `n` in range, each filtered on the
`N-Gram Length` column and sorted by `Cost` descending.  The Python dict
key `f'{n}-grams'` is represented by the number `n` itself.  The source
sorts with the pandas default `kind='quicksort'`; the embedding uses a
concrete comparison sort over the same key, so only properties independent
of the ordering of equal-key rows are proved about the buckets. -/
def analyze_ngrams (recs : List QueryRecord) (minN maxN : Nat) : List (Nat × List Row) :=
  if (aggregate recs minN maxN).perf = [] then []
  else
    (orderRange minN maxN).map fun n =>
      (n, ((performance_df (aggregate recs minN maxN)).filter
            (fun r => decide (r.length = some n))).insertionSort costRel)

/-- One row of the ads table (`src/app/ad_analyzer.py`): identifying text
columns and the two numeric columns the classifier reads. -/
structure AdRecord where
  campaign : String
  adGroup : String
  headline : String
  description : String
  impressions : ℚ
  clicks : ℚ
  deriving DecidableEq, Repr

/-- An ad row after `ads_df['CTR'] = Clicks / Impressions.replace(0, 1)`. -/
structure AdRow extends AdRecord where
  ctr : ℚ
  deriving DecidableEq, Repr

/-- Attach the `CTR` column to one ad row (line 18 of
`src/app/ad_analyzer.py`). -/
def attachCtr (a : AdRecord) : AdRow :=
  { a with ctr := a.clicks / floorDenom a.impressions }

/-- Embeds `find_underperforming_ads` from `src/app/ad_analyzer.py`:
compute the `CTR` column, then keep the rows with
`Impressions > min_impressions` and `CTR < max_ctr`, in their input order
(boolean-mask selection does not reorder rows). -/
def find_underperforming_ads (minImpressions maxCtr : ℚ) (ads : List AdRecord) : List AdRow :=
  (ads.map attachCtr).filter
    (fun r => decide (minImpressions < r.impressions) && decide (r.ctr < maxCtr))

/-- Embeds `ngram_analysis.get(key, pd.DataFrame())`: the bucket of order
`n`, or an empty one when the key is absent. -/
def getGrams (analysis : List (Nat × List Row)) (n : Nat) : List Row :=
  match analysis.find? (fun kv => kv.1 == n) with
  | some kv => kv.2
  | none => []

/-- Embeds `find_best_ngrams` from `src/app/ad_analyzer.py`: concatenate
the 2-gram and 3-gram buckets, return empty if that union is empty, else
keep rows with `Conversions >= min_conversions`, `CPA <= max_cpa` and
`CPA > 0`, sorted by `ROAS` descending. -/
def find_best_ngrams (minConversions maxCpa : ℚ) (analysis : List (Nat × List Row)) : List Row :=
  if getGrams analysis 2 ++ getGrams analysis 3 = [] then []
  else
    ((getGrams analysis 2 ++ getGrams analysis 3).filter (fun r =>
        decide (minConversions ≤ r.conversions) && decide (r.cpa ≤ maxCpa)
          && decide (0 < r.cpa))).insertionSort roasRel

/-- Embeds `find_mismatched_ngrams` from `src/app/ad_analyzer.py`:
concatenate the 2-gram and 3-gram buckets, return empty if that union is
empty, else keep rows with `Impressions >= min_impressions` and
`CTR < max_ctr`, sorted by `Impressions` descending. -/
def find_mismatched_ngrams (minImpressions maxCtr : ℚ) (analysis : List (Nat × List Row)) : List Row :=
  if getGrams analysis 2 ++ getGrams analysis 3 = [] then []
  else
    ((getGrams analysis 2 ++ getGrams analysis 3).filter (fun r =>
        decide (minImpressions ≤ r.impressions)
          && decide (r.ctr < maxCtr))).insertionSort imprRel

/-- The number of tokens a record's search term yields. -/
def tokenCount (r : QueryRecord) : Nat :=
  (word_tokenize (pyStr r.searchTerm)).length

/-! ### Tokens are non-empty and space-free -/

theorem char_toNat_ofNat {n : Nat} (h : n < 55296) : (Char.ofNat n).toNat = n := by
  rw [Char.ofNat, dif_pos (Or.inl h)]
  simp [Char.ofNatAux, Char.toNat, UInt32.toNat]

theorem toLower_eq_space {c : Char} (h : c.toLower = ' ') : c = ' ' := by
  rw [Char.toLower] at h
  split at h
  · exfalso
    have h2 := congrArg Char.toNat h
    rename_i hcond
    rw [char_toNat_ofNat (by omega)] at h2
    have hsp : (' ' : Char).toNat = 32 := rfl
    omega
  · exact h

theorem word_tokenize_aux_sound :
    ∀ (cs cur : List Char), (∀ c ∈ cur, c.isWhitespace = false) →
      ∀ t ∈ word_tokenize_aux cs cur,
        t.data ≠ [] ∧ ∀ c ∈ t.data, c.isWhitespace = false := by
  intro cs
  induction cs with
  | nil =>
    intro cur hcur t ht
    rw [word_tokenize_aux] at ht
    split at ht
    · simp at ht
    · rename_i hne
      simp only [List.mem_singleton] at ht
      subst ht
      refine ⟨by simpa using hne, ?_⟩
      intro c hc
      exact hcur c (List.mem_reverse.1 hc)
  | cons c cs ih =>
    intro cur hcur t ht
    rw [word_tokenize_aux] at ht
    split at ht
    · rcases List.mem_append.1 ht with h | h
      · split at h
        · simp at h
        · rename_i hne
          simp only [List.mem_singleton] at h
          subst h
          exact ⟨by simpa using hne, fun c hc => hcur c (List.mem_reverse.1 hc)⟩
      · exact ih [] (by simp) t h
    · rename_i hws
      split at ht
      · refine ih (c :: cur) ?_ t ht
        intro d hd
        rcases List.mem_cons.1 hd with rfl | hd
        · exact Bool.not_eq_true _ ▸ by simpa using hws
        · exact hcur d hd
      · rcases List.mem_append.1 ht with h | h
        · split at h
          · simp at h
          · rename_i hne
            simp only [List.mem_singleton] at h
            subst h
            exact ⟨by simpa using hne, fun d hd => hcur d (List.mem_reverse.1 hd)⟩
        · rcases List.mem_cons.1 h with rfl | h
          · refine ⟨by simp, ?_⟩
            intro d hd
            simp only [List.mem_singleton] at hd
            subst hd
            simpa using hws
          · exact ih [] (by simp) t h

/-- Every lowercased token of the modelled tokenizer is non-empty and
contains no space character. -/
theorem token_spacefree (s : String) :
    ∀ t ∈ (word_tokenize s).map lower, t.data ≠ [] ∧ ' ' ∉ t.data := by
  intro t ht
  rcases List.mem_map.1 ht with ⟨t0, ht0, rfl⟩
  obtain ⟨hne, hws⟩ := word_tokenize_aux_sound s.data [] (by simp) t0 ht0
  constructor
  · simpa [lower] using hne
  · intro hmem
    simp only [lower] at hmem
    rcases List.mem_map.1 hmem with ⟨c, hc, hc2⟩
    have hcsp := toLower_eq_space hc2
    subst hcsp
    exact absurd (hws _ hc) (by decide)

theorem joinSpace_count :
    ∀ ts : List String, ts ≠ [] → (∀ t ∈ ts, t.data ≠ [] ∧ ' ' ∉ t.data) →
      (joinSpace ts).data ≠ [] ∧ (joinSpace ts).data.count ' ' = ts.length - 1 := by
  intro ts
  induction ts with
  | nil => simp
  | cons t ts ih =>
    intro _ h
    cases ts with
    | nil =>
      obtain ⟨hne, hsp⟩ := h t (by simp)
      exact ⟨hne, by simpa [joinSpace] using List.count_eq_zero_of_not_mem hsp⟩
    | cons t2 ts2 =>
      obtain ⟨hne2, hcount2⟩ := ih (by simp) (fun u hu => h u (List.mem_cons_of_mem t hu))
      obtain ⟨hne, hsp⟩ := h t (by simp)
      constructor
      · simp [joinSpace]
      · show ((⟨t.data ++ ' ' :: (joinSpace (t2 :: ts2)).data⟩ : String)).data.count ' ' = _
        have : (t.data ++ ' ' :: (joinSpace (t2 :: ts2)).data).count ' '
            = t.data.count ' ' + ((joinSpace (t2 :: ts2)).data.count ' ' + 1) := by
          simp [List.count_append, List.count_cons]
        rw [show ((⟨t.data ++ ' ' :: (joinSpace (t2 :: ts2)).data⟩ : String)).data
              = t.data ++ ' ' :: (joinSpace (t2 :: ts2)).data from rfl, this,
           List.count_eq_zero_of_not_mem hsp, hcount2]
        simp [List.length_cons]

theorem mem_windows {tokens : List String} {n : Nat} {w : List String}
    (h : w ∈ windows tokens n) : w.length = n ∧ ∀ t ∈ w, t ∈ tokens := by
  rcases List.mem_map.1 h with ⟨i, hi, rfl⟩
  have hi' := List.mem_range.1 hi
  constructor
  · rw [List.length_take, List.length_drop]
    omega
  · intro t ht
    exact List.drop_subset i tokens (List.take_subset n _ ht)

/-- The order of a generated phrase is readable off the phrase string:
order `0` gives the empty string, order `n ≥ 1` gives a non-empty string
with exactly `n - 1` spaces. -/
theorem generate_ngrams_order {text : PyVal} {n : Nat} {p : String}
    (h : p ∈ generate_ngrams text n) :
    (n = 0 → p.data = []) ∧ (1 ≤ n → p.data ≠ [] ∧ p.data.count ' ' = n - 1) := by
  rcases List.mem_map.1 h with ⟨w, hw, rfl⟩
  obtain ⟨hlen, hmem⟩ := mem_windows hw
  constructor
  · intro h0
    subst h0
    rw [List.length_eq_zero.1 hlen]
    rfl
  · intro h1
    have hwne : w ≠ [] := by
      intro h0
      subst h0
      simp at hlen
      omega
    obtain ⟨hne, hcount⟩ :=
      joinSpace_count w hwne (fun t ht => token_spacefree _ t (hmem t ht))
    exact ⟨hne, by rw [hcount, hlen]⟩

/-- An identically looking phrase cannot be produced at two different
orders: the phrase string determines its n-gram order. -/
theorem phrase_order_unique {p : String} {t t' : PyVal} {n n' : Nat}
    (h : p ∈ generate_ngrams t n) (h' : p ∈ generate_ngrams t' n') : n = n' := by
  obtain ⟨h0, h1⟩ := generate_ngrams_order h
  obtain ⟨h0', h1'⟩ := generate_ngrams_order h'
  rcases Nat.eq_zero_or_pos n with hn | hn
  · rcases Nat.eq_zero_or_pos n' with hn' | hn'
    · omega
    · exact absurd (h0 hn) (h1' hn').1
  · rcases Nat.eq_zero_or_pos n' with hn' | hn'
    · exact absurd (h0' hn') (h1 hn).1
    · have e1 := (h1 hn).2
      have e2 := (h1' hn').2
      omega

/-! ### Aggregation-state lemmas -/

theorem lookupPerf_addPerf (s : List (String × Metrics)) (q p : String) (m : Metrics) :
    lookupPerf (addPerf s q m) p = lookupPerf s p + (if q = p then m else 0) := by
  induction s with
  | nil =>
    by_cases h : q = p <;> simp [addPerf, lookupPerf, h]
  | cons e rest ih =>
    obtain ⟨r, mr⟩ := e
    by_cases hrq : r = q
    · subst hrq
      by_cases hrp : r = p
      · subst hrp
        simp [addPerf, lookupPerf]
      · simp [addPerf, lookupPerf, hrp]
    · by_cases hrp : r = p
      · have hqp : ¬ q = p := fun h => hrq (hrp.trans h.symm)
        have hpq : ¬ p = q := fun h => hqp h.symm
        simp [addPerf, lookupPerf, hrq, hrp, hqp, hpq]
      · simp [addPerf, lookupPerf, hrq, hrp, ih]

theorem keys_addPerf (s : List (String × Metrics)) (q : String) (m : Metrics) :
    (addPerf s q m).map Prod.fst
      = if q ∈ s.map Prod.fst then s.map Prod.fst else s.map Prod.fst ++ [q] := by
  induction s with
  | nil => simp [addPerf]
  | cons e rest ih =>
    obtain ⟨r, mr⟩ := e
    by_cases hrq : r = q
    · subst hrq
      simp [addPerf]
    · have : ¬ q = r := fun h => hrq h.symm
      by_cases hq : q ∈ rest.map Prod.fst <;>
        simp [addPerf, hrq, this, hq, ih]

theorem nodup_keys_addPerf {s : List (String × Metrics)} (h : (s.map Prod.fst).Nodup)
    (q : String) (m : Metrics) : ((addPerf s q m).map Prod.fst).Nodup := by
  rw [keys_addPerf]
  split
  · exact h
  · rename_i hq
    rw [List.nodup_append]
    refine ⟨h, List.nodup_singleton q, ?_⟩
    intro x hx hq2
    simp only [List.mem_singleton] at hq2
    exact hq (hq2 ▸ hx)

theorem lookupLen_setLen (s : List (String × Nat)) (q p : String) (n : Nat) :
    lookupLen (setLen s q n) p = if q = p then some n else lookupLen s p := by
  induction s with
  | nil =>
    by_cases h : q = p <;> simp [setLen, lookupLen, h]
  | cons e rest ih =>
    obtain ⟨r, nr⟩ := e
    by_cases hrq : r = q
    · subst hrq
      by_cases hrp : r = p
      · subst hrp
        simp [setLen, lookupLen]
      · simp [setLen, lookupLen, hrp]
    · by_cases hrp : r = p
      · have hqp : ¬ q = p := fun h => hrq (hrp.trans h.symm)
        have hpq : ¬ p = q := fun h => hqp h.symm
        simp [setLen, lookupLen, hrq, hrp, hqp, hpq]
      · simp [setLen, lookupLen, hrq, hrp, ih]

theorem applyUpdates_append (st : AggState) (L1 L2 : List (String × Nat × Metrics)) :
    applyUpdates st (L1 ++ L2) = applyUpdates (applyUpdates st L1) L2 := by
  induction L1 generalizing st with
  | nil => simp [applyUpdates]
  | cons u L1 ih =>
    obtain ⟨p, n, m⟩ := u
    simp [applyUpdates, ih]

/-- The accumulated metrics of a phrase split additively over any state the
updates are applied to. -/
theorem lookupPerf_applyUpdates (L : List (String × Nat × Metrics)) (st : AggState)
    (p : String) :
    lookupPerf (applyUpdates st L).perf p
      = lookupPerf st.perf p + lookupPerf (applyUpdates ⟨[], []⟩ L).perf p := by
  induction L generalizing st with
  | nil => simp [applyUpdates, lookupPerf]
  | cons u L ih =>
    obtain ⟨q, n, m⟩ := u
    show lookupPerf (applyUpdates (addNgram st q n m) L).perf p = _
    rw [ih]
    conv_rhs =>
      rw [show applyUpdates ⟨[], []⟩ ((q, n, m) :: L)
            = applyUpdates (addNgram ⟨[], []⟩ q n m) L from rfl, ih]
    show lookupPerf (addPerf st.perf q m) p + _
        = lookupPerf st.perf p + (lookupPerf (addPerf [] q m) p + _)
    rw [lookupPerf_addPerf, lookupPerf_addPerf]
    show _ = lookupPerf st.perf p + ((lookupPerf [] p + _) + _)
    rw [show lookupPerf [] p = 0 from rfl]
    abel

theorem nodup_keys_applyUpdates {st : AggState} (h : (st.perf.map Prod.fst).Nodup)
    (L : List (String × Nat × Metrics)) :
    ((applyUpdates st L).perf.map Prod.fst).Nodup := by
  induction L generalizing st with
  | nil => exact h
  | cons u L ih =>
    obtain ⟨q, n, m⟩ := u
    exact ih (nodup_keys_addPerf h q m)

theorem lookupLen_applyUpdates_not_mem {L : List (String × Nat × Metrics)} {p : String}
    (h : ∀ u ∈ L, u.1 ≠ p) (st : AggState) :
    lookupLen (applyUpdates st L).lens p = lookupLen st.lens p := by
  induction L generalizing st with
  | nil => rfl
  | cons u L ih =>
    obtain ⟨q, n, m⟩ := u
    have hq : q ≠ p := h (q, n, m) (by simp)
    show lookupLen (applyUpdates (addNgram st q n m) L).lens p = _
    rw [ih (fun u hu => h u (List.mem_cons_of_mem _ hu))]
    show lookupLen (setLen st.lens q n) p = _
    rw [lookupLen_setLen]
    simp [hq]

/-- If every update for phrase `p` writes the same order `n`, and at least
one update for `p` occurs, the final recorded length of `p` is `n`. -/
theorem lookupLen_applyUpdates_all {L : List (String × Nat × Metrics)} {p : String}
    {n : Nat} (hall : ∀ u ∈ L, u.1 = p → u.2.1 = n) (hex : ∃ u ∈ L, u.1 = p)
    (st : AggState) : lookupLen (applyUpdates st L).lens p = some n := by
  induction L generalizing st with
  | nil => simp at hex
  | cons u L ih
  =>
    obtain ⟨q, k, m⟩ := u
    by_cases hex' : ∃ u ∈ L, u.1 = p
    · exact ih (fun u hu => hall u (List.mem_cons_of_mem _ hu)) hex' _
    · have hq : q = p := by
        rcases hex with ⟨u, hu, hup⟩
        rcases List.mem_cons.1 hu with rfl | hu
        · exact hup
        · exact absurd ⟨u, hu, hup⟩ hex'
      have hk : k = n := hall (q, k, m) (by simp) hq
      show lookupLen (applyUpdates (addNgram st q k m) L).lens p = some n
      have hnot : ∀ u ∈ L, u.1 ≠ p := by
        intro u hu h
        exact hex' ⟨u, hu, h⟩
      rw [lookupLen_applyUpdates_not_mem hnot]
      show lookupLen (setLen st.lens q k) p = some n
      rw [lookupLen_setLen, if_pos hq, hk]

/-! ### Membership in the update sequence -/

theorem mem_recordUpdatesOrders {r : QueryRecord} {ns : List Nat}
    {u : String × Nat × Metrics} :
    u ∈ recordUpdatesOrders r ns
      ↔ ∃ n ∈ ns, u.2.1 = n ∧ u.2.2 = r.metrics ∧ u.1 ∈ generate_ngrams r.searchTerm n := by
  obtain ⟨p, k, m⟩ := u
  induction ns with
  | nil => simp [recordUpdatesOrders]
  | cons n ns ih =>
    simp only [recordUpdatesOrders, List.mem_append, List.mem_map, ih, List.mem_cons,
      Prod.mk.injEq]
    constructor
    · rintro (⟨p0, hp0, rfl, rfl, rfl⟩ | ⟨n', hn', hk, hm, hp⟩)
      · exact ⟨n, Or.inl rfl, rfl, rfl, hp0⟩
      · exact ⟨n', Or.inr hn', hk, hm, hp⟩
    · rintro ⟨n', hn' | hn', hk, hm, hp⟩
      · subst hn'
        exact Or.inl ⟨p, hp, rfl, hk.symm, hm.symm⟩
      · exact Or.inr ⟨n', hn', hk, hm, hp⟩

theorem mem_allUpdates {minN maxN : Nat} {recs : List QueryRecord}
    {u : String × Nat × Metrics} :
    u ∈ allUpdates minN maxN recs
      ↔ ∃ r ∈ recs, ∃ n ∈ orderRange minN maxN,
          u.2.1 = n ∧ u.2.2 = r.metrics ∧ u.1 ∈ generate_ngrams r.searchTerm n := by
  induction recs with
  | nil => simp [allUpdates]
  | cons r recs ih =>
    constructor
    · intro h
      rcases List.mem_append.1 h with h | h
      · rcases mem_recordUpdatesOrders.1 h with ⟨n, hn, he⟩
        exact ⟨r, by simp, n, hn, he⟩
      · rcases ih.1 h with ⟨r', hr', he⟩
        exact ⟨r', List.mem_cons_of_mem _ hr', he⟩
    · rintro ⟨r', hr', n, hn, he⟩
      rcases List.mem_cons.1 hr' with rfl | hr'
      · exact List.mem_append.2 (Or.inl (mem_recordUpdatesOrders.2 ⟨n, hn, he⟩))
      · exact List.mem_append.2 (Or.inr (ih.2 ⟨r', hr', n, hn, he⟩))

/-! ### Non-negativity invariant -/

/-- All five metric cells are non-negative (the spec's data-model
assumption on loaded records). -/
def MetricsNonneg (m : Metrics) : Prop :=
  0 ≤ m.impressions ∧ 0 ≤ m.clicks ∧ 0 ≤ m.cost ∧ 0 ≤ m.conversions ∧ 0 ≤ m.convValue

instance : DecidablePred MetricsNonneg := fun m =>
  decidable_of_iff
    (0 ≤ m.impressions ∧ 0 ≤ m.clicks ∧ 0 ≤ m.cost ∧ 0 ≤ m.conversions ∧ 0 ≤ m.convValue)
    Iff.rfl

theorem MetricsNonneg.add {a b : Metrics} (ha : MetricsNonneg a) (hb : MetricsNonneg b) :
    MetricsNonneg (a + b) := by
  obtain ⟨h1, h2, h3, h4, h5⟩ := ha
  obtain ⟨g1, g2, g3, g4, g5⟩ := hb
  refine ⟨?_, ?_, ?_, ?_, ?_⟩ <;> simp <;> positivity

theorem addPerf_nonneg {s : List (String × Metrics)}
    (hs : ∀ e ∈ s, MetricsNonneg e.2) {m : Metrics} (hm : MetricsNonneg m)
    (p : String) : ∀ e ∈ addPerf s p m, MetricsNonneg e.2 := by
  induction s with
  | nil =>
    intro e he
    simp only [addPerf, List.mem_singleton] at he
    subst he
    exact hm
  | cons f rest ih =>
    obtain ⟨q, mq⟩ := f
    intro e he
    rw [addPerf] at he
    split at he
    · rcases List.mem_cons.1 he with rfl | he
      · exact (hs (q, mq) (by simp)).add hm
      · exact hs e (List.mem_cons_of_mem _ he)
    · rcases List.mem_cons.1 he with rfl | he
      · exact hs (q, mq) (by simp)
      · exact ih (fun e he => hs e (List.mem_cons_of_mem _ he)) e he

theorem applyUpdates_nonneg {L : List (String × Nat × Metrics)}
    (hL : ∀ u ∈ L, MetricsNonneg u.2.2) {st : AggState}
    (hst : ∀ e ∈ st.perf, MetricsNonneg e.2) :
    ∀ e ∈ (applyUpdates st L).perf, MetricsNonneg e.2 := by
  induction L generalizing st with
  | nil => exact hst
  | cons u L ih =>
    obtain ⟨p, n, m⟩ := u
    exact ih (fun u hu => hL u (List.mem_cons_of_mem _ hu))
      (addPerf_nonneg hst (hL (p, n, m) (by simp)) p)

theorem aggregate_nonneg {recs : List QueryRecord}
    (h : ∀ r ∈ recs, MetricsNonneg r.metrics) (minN maxN : Nat) :
    ∀ e ∈ (aggregate recs minN maxN).perf, MetricsNonneg e.2 := by
  refine applyUpdates_nonneg ?_ (by simp)
  intro u hu
  rcases mem_allUpdates.1 hu with ⟨r, hr, n, _, _, hm, _⟩
  exact hm ▸ h r hr

/-- The entry of a phrase is the sum of the metric contributions of all
updates that touch it: contributions are merged additively, never
overwritten. -/
theorem lookupPerf_eq_sum (L : List (String × Nat × Metrics)) (p : String) :
    lookupPerf (applyUpdates ⟨[], []⟩ L).perf p
      = ((L.filter (fun u => decide (u.1 = p))).map (fun u => u.2.2)).sum := by
  induction L with
  | nil => simp [applyUpdates, lookupPerf]
  | cons u L ih =>
    obtain ⟨q, n, m⟩ := u
    show lookupPerf (applyUpdates (addNgram ⟨[], []⟩ q n m) L).perf p = _
    rw [lookupPerf_applyUpdates, ih]
    show lookupPerf (addPerf [] q m) p + _ = _
    rw [lookupPerf_addPerf]
    show lookupPerf [] p + _ + _ = _
    rw [show lookupPerf [] p = 0 from rfl, zero_add]
    by_cases hq : q = p
    · simp [List.filter_cons, hq]
    · simp [List.filter_cons, hq]

/-- C1: aggregates are keyed by `(phrase, length)`.  In the source the
dict key is the phrase string alone, so the theorem records the four facts
that together give the claim: (1) each phrase string owns at most one
aggregate entry (hence at most one per `(phrase, length)`); (2) the tokens
being non-empty and space-free, an identical-looking phrase can only be
produced at one order, so keying by phrase coincides with keying by
`(phrase, length)`; (3) duplicates are merged additively into the single
entry, never overwritten; and (4) every aggregate carries its order in the
explicit `N-Gram Length` attribute, which equals the order at which its
phrase was generated. -/
theorem c1_aggregates_keyed_by_phrase_and_length (recs : List QueryRecord)
    (minN maxN : Nat) :
    ((aggregate recs minN maxN).perf.map Prod.fst).Nodup
    ∧ (∀ (p : String) (t t' : PyVal) (n n' : Nat),
        p ∈ generate_ngrams t n → p ∈ generate_ngrams t' n' → n = n')
    ∧ (∀ p, lookupPerf (aggregate recs minN maxN).perf p
        = (((allUpdates minN maxN recs).filter
              (fun u => decide (u.1 = p))).map (fun u => u.2.2)).sum)
    ∧ (∀ r ∈ recs, ∀ n ∈ orderRange minN maxN, ∀ p ∈ generate_ngrams r.searchTerm n,
        lookupLen (aggregate recs minN maxN).lens p = some n)
    ∧ (∀ row ∈ performance_df (aggregate recs minN maxN),
        row.length = lookupLen (aggregate recs minN maxN).lens row.ngram) := by
  refine ⟨?_, ?_, ?_, ?_, ?_⟩
  · exact nodup_keys_applyUpdates (by simp) _
  · exact fun p t t' n n' h h' => phrase_order_unique h h'
  · exact fun p => lookupPerf_eq_sum _ p
  · intro r hr n hn p hp
    refine lookupLen_applyUpdates_all ?_ ?_ _
    · intro u hu hup
      rcases mem_allUpdates.1 hu with ⟨r', _, n'', _, hk, _, hgen⟩
      rw [hk]
      exact phrase_order_unique (hup ▸ hgen) hp
    · exact ⟨(p, n, r.metrics), mem_allUpdates.2 ⟨r, hr, n, hn, rfl, rfl, hp⟩, rfl⟩
  · intro row hrow
    rcases List.mem_map.1 hrow with ⟨e, _, rfl⟩
    rfl

/-- Scenario records from the spec's first end-to-end example. -/
def qA : QueryRecord := ⟨.str "red running shoes", ⟨8000, 40, 100, 10, 800⟩⟩

def qB : QueryRecord := ⟨.str "blue running shoes", ⟨6000, 20, 90, 2, 60⟩⟩

/-- Witness for C1 at the spec's scenario input: the inner membership
hypotheses are satisfiable (`"running shoes"` really is generated at
order 2) and the theorem instantiates there. -/
theorem c1_witness :
    ("running shoes" ∈ generate_ngrams (PyVal.str "red running shoes") 2
      ∧ qA ∈ [qA, qB] ∧ 2 ∈ orderRange 2 3)
    ∧ (((aggregate [qA, qB] 2 3).perf.map Prod.fst).Nodup
      ∧ (∀ (p : String) (t t' : PyVal) (n n' : Nat),
          p ∈ generate_ngrams t n → p ∈ generate_ngrams t' n' → n = n')
      ∧ (∀ p, lookupPerf (aggregate [qA, qB] 2 3).perf p
          = (((allUpdates 2 3 [qA, qB]).filter
                (fun u => decide (u.1 = p))).map (fun u => u.2.2)).sum)
      ∧ (∀ r ∈ [qA, qB], ∀ n ∈ orderRange 2 3, ∀ p ∈ generate_ngrams r.searchTerm n,
          lookupLen (aggregate [qA, qB] 2 3).lens p = some n)
      ∧ (∀ row ∈ performance_df (aggregate [qA, qB] 2 3),
          row.length = lookupLen (aggregate [qA, qB] 2 3).lens row.ngram)) :=
  ⟨⟨by decide, by decide, by decide⟩, c1_aggregates_keyed_by_phrase_and_length [qA, qB] 2 3⟩

theorem allUpdates_append (minN maxN : Nat) (b1 b2 : List QueryRecord) :
    allUpdates minN maxN (b1 ++ b2) = allUpdates minN maxN b1 ++ allUpdates minN maxN b2 := by
  induction b1 with
  | nil => simp [allUpdates]
  | cons r b1 ih => simp [allUpdates, ih]

/-- C4: additivity of aggregation.  Aggregating the concatenation of two
batches gives, for every phrase, the sum of the metric sums obtained by
aggregating each batch separately; a phrase absent from a batch
contributes the zero metrics (the `lookupPerf` default).  The statement
holds for arbitrary batches, in particular disjoint ones. -/
theorem c4_additivity (b1 b2 : List QueryRecord) (minN maxN : Nat) (p : String) :
    lookupPerf (aggregate (b1 ++ b2) minN maxN).perf p
      = lookupPerf (aggregate b1 minN maxN).perf p
        + lookupPerf (aggregate b2 minN maxN).perf p := by
  show lookupPerf (applyUpdates ⟨[], []⟩ (allUpdates minN maxN (b1 ++ b2))).perf p = _
  rw [allUpdates_append, applyUpdates_append]
  exact lookupPerf_applyUpdates _ _ p

/-- A record whose metrics are valid per the data model (non-negative,
zero allowed) but have zero impressions alongside a positive click count. -/
def cexRecord : QueryRecord := ⟨.str "ad", ⟨0, 1, 0, 0, 0⟩⟩

/-- C2 fails on the code: with `impressions = 0` and `clicks = 1` the
derived ctr is `clicks / 1 = 1 ≠ 0`. -/
theorem c2_counterexample :
    ¬ (∀ row ∈ performance_df (aggregate [cexRecord] 1 1),
        row.impressions = 0 → row.ctr = 0) := by decide

/-- C2 amended: a zero denominator is replaced by `1`, so the derived
ratio equals the raw numerator (which is `0` exactly when the numerator is
also `0`): `impressions = 0` gives `ctr = clicks`, `clicks = 0` gives
`conversionRate = conversions`, `conversions = 0` gives `cpa = cost`, and
`cost = 0` gives `roas = conversionValue`. -/
theorem c2_zero_denominator_amended (recs : List QueryRecord) (minN maxN : Nat) :
    ∀ row ∈ performance_df (aggregate recs minN maxN),
      (row.impressions = 0 → row.ctr = row.clicks)
      ∧ (row.clicks = 0 → row.convRate = row.conversions)
      ∧ (row.conversions = 0 → row.cpa = row.cost)
      ∧ (row.cost = 0 → row.roas = row.convValue) := by
  intro row hrow
  rcases List.mem_map.1 hrow with ⟨e, _, rfl⟩
  refine ⟨fun h => ?_, fun h => ?_, fun h => ?_, fun h => ?_⟩
  · show e.2.clicks / floorDenom e.2.impressions = e.2.clicks
    rw [floorDenom, if_pos (show e.2.impressions = 0 from h), div_one]
  · show e.2.conversions / floorDenom e.2.clicks = e.2.conversions
    rw [floorDenom, if_pos (show e.2.clicks = 0 from h), div_one]
  · show e.2.cost / floorDenom e.2.conversions = e.2.cost
    rw [floorDenom, if_pos (show e.2.conversions = 0 from h), div_one]
  · show e.2.convValue / floorDenom e.2.cost = e.2.convValue
    rw [floorDenom, if_pos (show e.2.cost = 0 from h), div_one]

/-- A record with zero clicks, cost and conversions. -/
def qZero : QueryRecord := ⟨.str "zz", ⟨5, 0, 0, 0, 0⟩⟩

/-- Witness for the amended C2: at a record with zero clicks, cost and
conversions the antecedents are satisfiable and the theorem applies. -/
theorem c2_witness :
    (∃ row ∈ performance_df (aggregate [qZero] 1 1),
        row.clicks = 0 ∧ row.conversions = 0 ∧ row.cost = 0)
    ∧ (∀ row ∈ performance_df (aggregate [qZero] 1 1),
        (row.impressions = 0 → row.ctr = row.clicks)
        ∧ (row.clicks = 0 → row.convRate = row.conversions)
        ∧ (row.conversions = 0 → row.cpa = row.cost)
        ∧ (row.cost = 0 → row.roas = row.convValue)) :=
  ⟨by decide, c2_zero_denominator_amended [qZero] 1 1⟩

theorem floorDenom_of_nonneg {x : ℚ} (h : 0 ≤ x) :
    floorDenom x = if 0 < x then x else 1 := by
  rw [floorDenom]
  by_cases h0 : x = 0
  · subst h0
    simp
  · rw [if_neg h0, if_pos (lt_of_le_of_ne h (Ne.symm h0))]

/-- C3: derived-metric formulas.  On non-negative inputs every pipeline
row satisfies the spec's formulas (denominator floored to 1 when the sum
is not positive); the derivation is a per-row function of the accumulated
sums, every pipeline row is already derived (deriving again changes
nothing), and derivation is idempotent on all rows. -/
theorem c3_metric_derivation (recs : List QueryRecord) (minN maxN : Nat)
    (h : ∀ r ∈ recs, MetricsNonneg r.metrics) :
    (∀ row ∈ performance_df (aggregate recs minN maxN),
        (row.ctr = row.clicks / (if 0 < row.impressions then row.impressions else 1)
        ∧ row.convRate = row.conversions / (if 0 < row.clicks then row.clicks else 1)
        ∧ row.cpa = row.cost / (if 0 < row.conversions then row.conversions else 1)
        ∧ row.roas = row.convValue / (if 0 < row.cost then row.cost else 1))
        ∧ recomputeRow row = row)
    ∧ (∀ row : Row, recomputeRow (recomputeRow row) = recomputeRow row) := by
  constructor
  · intro row hrow
    rcases List.mem_map.1 hrow with ⟨e, he, rfl⟩
    have hnn := aggregate_nonneg h minN maxN e he
    obtain ⟨h1, h2, h3, h4, h5⟩ := hnn
    refine ⟨⟨?_, ?_, ?_, ?_⟩, rfl⟩
    · show e.2.clicks / floorDenom e.2.impressions = _
      rw [floorDenom_of_nonneg h1]
      rfl
    · show e.2.conversions / floorDenom e.2.clicks = _
      rw [floorDenom_of_nonneg h2]
      rfl
    · show e.2.cost / floorDenom e.2.conversions = _
      rw [floorDenom_of_nonneg h4]
      rfl
    · show e.2.convValue / floorDenom e.2.cost = _
      rw [floorDenom_of_nonneg h3]
      rfl
  · intro row
    rfl

/-- Witness for C3 at the spec's scenario input. -/
theorem c3_witness :
    (∀ r ∈ [qA, qB], MetricsNonneg r.metrics)
    ∧ ((∀ row ∈ performance_df (aggregate [qA, qB] 2 3),
        (row.ctr = row.clicks / (if 0 < row.impressions then row.impressions else 1)
        ∧ row.convRate = row.conversions / (if 0 < row.clicks then row.clicks else 1)
        ∧ row.cpa = row.cost / (if 0 < row.conversions then row.conversions else 1)
        ∧ row.roas = row.convValue / (if 0 < row.cost then row.cost else 1))
        ∧ recomputeRow row = row)
      ∧ (∀ row : Row, recomputeRow (recomputeRow row) = recomputeRow row)) :=
  ⟨by decide, c3_metric_derivation [qA, qB] 2 3 (by decide)⟩

instance : IsTotal Row roasRel := ⟨fun a b => le_total b.roas a.roas⟩

instance : IsTrans Row roasRel := ⟨fun _ _ _ h1 h2 => le_trans h2 h1⟩

instance : IsTotal Row costRel := ⟨fun a b => le_total b.cost a.cost⟩

instance : IsTrans Row costRel := ⟨fun _ _ _ h1 h2 => le_trans h2 h1⟩

instance : IsTotal Row imprRel := ⟨fun a b => le_total b.impressions a.impressions⟩

instance : IsTrans Row imprRel := ⟨fun _ _ _ h1 h2 => le_trans h2 h1⟩

/-- C5: the gold-nugget classifier reads exactly the union of the 2-gram
and 3-gram buckets, keeps exactly the rows with
`conversions ≥ minConversions`, `cpa ≤ maxCpa` and `cpa > 0`, and returns
them ordered by `roas` descending.  Stated for arbitrary thresholds; the
source defaults are `5` and `50.0` (see the witness). -/
theorem c5_gold_nuggets (minConversions maxCpa : ℚ) (analysis : List (Nat × List Row)) :
    (find_best_ngrams minConversions maxCpa analysis).Perm
        ((getGrams analysis 2 ++ getGrams analysis 3).filter (fun r =>
          decide (minConversions ≤ r.conversions) && decide (r.cpa ≤ maxCpa)
            && decide (0 < r.cpa)))
    ∧ (find_best_ngrams minConversions maxCpa analysis).Sorted roasRel := by
  rw [find_best_ngrams]
  by_cases h : getGrams analysis 2 ++ getGrams analysis 3 = []
  · rw [if_pos h, h]
    exact ⟨by simp, List.sorted_nil⟩
  · rw [if_neg h]
    exact ⟨List.perm_insertionSort _ _, List.sorted_insertionSort _ _⟩

/-- Witness for C5 under the source defaults `(5, 50.0)`, on the buckets
produced by the pipeline for the scenario records: the `running shoes`
2-gram qualifies (conversions 12, cpa 190/12, roas 860/190). -/
theorem c5_witness :
    (∃ r ∈ find_best_ngrams 5 50 (analyze_ngrams [qA, qB] 2 3), r.ngram = "running shoes")
    ∧ ((find_best_ngrams 5 50 (analyze_ngrams [qA, qB] 2 3)).Perm
        ((getGrams (analyze_ngrams [qA, qB] 2 3) 2
            ++ getGrams (analyze_ngrams [qA, qB] 2 3) 3).filter (fun r =>
          decide ((5 : ℚ) ≤ r.conversions) && decide (r.cpa ≤ (50 : ℚ))
            && decide ((0 : ℚ) < r.cpa)))
      ∧ (find_best_ngrams 5 50 (analyze_ngrams [qA, qB] 2 3)).Sorted roasRel) :=
  ⟨by decide, c5_gold_nuggets 5 50 (analyze_ngrams [qA, qB] 2 3)⟩

/-- C6: the underperforming-ad classifier attaches
`ctr = clicks / impressions.replace(0, 1)` to every ad, selects exactly
the rows with `impressions > minImpressions` (strict) and `ctr < maxCtr`,
and keeps them in input order (the output is a sublist of the
`CTR`-attached input). -/
theorem c6_underperforming_ads (ads : List AdRecord) (minImpressions maxCtr : ℚ) :
    (find_underperforming_ads minImpressions maxCtr ads).Sublist (ads.map attachCtr)
    ∧ (∀ x, x ∈ find_underperforming_ads minImpressions maxCtr ads
        ↔ x ∈ ads.map attachCtr ∧ minImpressions < x.impressions ∧ x.ctr < maxCtr)
    ∧ (∀ a : AdRecord,
        (attachCtr a).ctr = a.clicks / (if a.impressions = 0 then 1 else a.impressions)) := by
  refine ⟨List.filter_sublist _, ?_, fun a => rfl⟩
  intro x
  rw [find_underperforming_ads, List.mem_filter]
  simp

/-- The spec's second end-to-end example: an ad with 12000 impressions and
ctr 0.025, and an ad with only 9000 impressions. -/
def adA : AdRecord := ⟨"c", "g", "h1", "d", 12000, 300⟩

def adB : AdRecord := ⟨"c", "g", "h2", "d", 9000, 100⟩

/-- Witness for C6 under the source defaults `(10000, 0.04)`: the
12000-impression ad is selected, the 9000-impression ad is not. -/
theorem c6_witness :
    (find_underperforming_ads 10000 0.04 [adA, adB] = [attachCtr adA])
    ∧ ((find_underperforming_ads 10000 0.04 [adA, adB]).Sublist
          ([adA, adB].map attachCtr)
      ∧ (∀ x, x ∈ find_underperforming_ads 10000 0.04 [adA, adB]
          ↔ x ∈ [adA, adB].map attachCtr
              ∧ (10000 : ℚ) < x.impressions ∧ x.ctr < (0.04 : ℚ))
      ∧ (∀ a : AdRecord,
          (attachCtr a).ctr = a.clicks / (if a.impressions = 0 then 1 else a.impressions))) :=
  ⟨by decide, c6_underperforming_ads [adA, adB] 10000 0.04⟩

/-- A text whose token sequence is shorter than the requested order yields
no n-grams. -/
theorem generate_ngrams_short {t : PyVal} {n : Nat}
    (h : ((word_tokenize (pyStr t)).map lower).length < n) :
    generate_ngrams t n = [] := by
  unfold generate_ngrams windows
  rw [show ((word_tokenize (pyStr t)).map lower).length + 1 - n = 0 by omega]
  rfl

theorem mem_orderRange {minN maxN n : Nat} :
    n ∈ orderRange minN maxN ↔ minN ≤ n ∧ n ≤ maxN := by
  rw [orderRange, List.mem_range']
  constructor
  · rintro ⟨i, hi, rfl⟩
    omega
  · rintro ⟨h1, h2⟩
    exact ⟨n - minN, by omega, by omega⟩

theorem recordUpdatesOrders_nil {r : QueryRecord} {ns : List Nat}
    (h : ∀ n ∈ ns, generate_ngrams r.searchTerm n = []) :
    recordUpdatesOrders r ns = [] := by
  induction ns with
  | nil => rfl
  | cons n ns ih =>
    rw [recordUpdatesOrders, h n (by simp), ih (fun k hk => h k (List.mem_cons_of_mem _ hk))]
    rfl

/-- C8: no-data conditions are never failures.  An empty record collection
aggregates to the empty bucket collection; so does one whose every
record has fewer tokens than `minN`; and an empty 2-gram/3-gram union
makes both the gold-nugget and the mismatch classifier return empty
results. -/
theorem c8_no_data (recs : List QueryRecord) (minN maxN : Nat)
    (analysis : List (Nat × List Row)) (mc mcpa mi mctr : ℚ) :
    analyze_ngrams [] minN maxN = []
    ∧ ((∀ r ∈ recs, tokenCount r < minN) → analyze_ngrams recs minN maxN = [])
    ∧ (getGrams analysis 2 ++ getGrams analysis 3 = [] →
        find_best_ngrams mc mcpa analysis = []
          ∧ find_mismatched_ngrams mi mctr analysis = []) := by
  refine ⟨rfl, fun h => ?_, fun h => ?_⟩
  · have hperf : (aggregate recs minN maxN).perf = [] := by
      have hupd : allUpdates minN maxN recs = [] := by
        induction recs with
        | nil => rfl
        | cons r rs ih =>
          rw [allUpdates, recordUpdates, recordUpdatesOrders_nil, List.nil_append]
          · exact ih (fun r' hr' => h r' (List.mem_cons_of_mem _ hr'))
          · intro n hn
            refine generate_ngrams_short ?_
            have h1 := (mem_orderRange.1 hn).1
            have h2 := h r (by simp)
            rw [tokenCount] at h2
            rw [List.length_map]
            omega
      rw [aggregate, hupd]
      rfl
    rw [analyze_ngrams, if_pos hperf]
  · constructor
    · rw [find_best_ngrams, if_pos h]
    · rw [find_mismatched_ngrams, if_pos h]

/-- Witness for C8: a record whose single token `ad` is shorter than the
requested 2..3 range, and the empty bucket list for the classifiers. -/
theorem c8_witness :
    (∀ r ∈ [cexRecord], tokenCount r < 2)
    ∧ (getGrams ([] : List (Nat × List Row)) 2 ++ getGrams ([] : List (Nat × List Row)) 3 = [])
    ∧ (analyze_ngrams [] 2 3 = []
      ∧ ((∀ r ∈ [cexRecord], tokenCount r < 2) → analyze_ngrams [cexRecord] 2 3 = [])
      ∧ (getGrams ([] : List (Nat × List Row)) 2 ++ getGrams ([] : List (Nat × List Row)) 3 = [] →
          find_best_ngrams 5 50 [] = [] ∧ find_mismatched_ngrams 5000 0.05 [] = [])) :=
  ⟨by decide, by decide, c8_no_data [cexRecord] 2 3 [] 5 50 5000 0.05⟩

/-- C9 fails on the code: `str(None)` is `"None"`, so a null text yields
the phrase `"none"` at order 1 rather than an empty phrase sequence. -/
theorem c9_counterexample : generate_ngrams PyVal.null 1 ≠ [] := by decide

/-- C9 amended: empty text produces an empty token sequence, and hence no
phrases at any order `n ≥ 1`; a missing/null text, however, is coerced by
`str()` to the text `"None"`, which tokenizes to the single token
`"none"`: null input yields the one phrase `"none"` at order 1 and the
empty phrase sequence at every order `n ≥ 2`. -/
theorem c9_null_text_amended (n : Nat) :
    (1 ≤ n → generate_ngrams (PyVal.str "") n = [])
    ∧ generate_ngrams PyVal.null 1 = ["none"]
    ∧ (2 ≤ n → generate_ngrams PyVal.null n = []) := by
  refine ⟨fun h => ?_, by decide, fun h => ?_⟩
  · refine generate_ngrams_short ?_
    rw [show ((word_tokenize (pyStr (PyVal.str ""))).map lower).length = 0 from rfl]
    omega
  · refine generate_ngrams_short ?_
    rw [show ((word_tokenize (pyStr PyVal.null)).map lower).length = 1 from rfl]
    omega

/-- Witness for C9 (amended) at order 2. -/
theorem c9_witness :
    ((1 : Nat) ≤ 2 ∧ (2 : Nat) ≤ 2)
    ∧ ((1 ≤ 2 → generate_ngrams (PyVal.str "") 2 = [])
      ∧ generate_ngrams PyVal.null 1 = ["none"]
      ∧ (2 ≤ 2 → generate_ngrams PyVal.null 2 = [])) :=
  ⟨by decide, c9_null_text_amended 2⟩

/-- C10: whenever at least one phrase was generated, the result of
`analyze_ngrams` has exactly one bucket per order `n` of the inclusive
range `[minN, maxN]` — also for orders with no phrase of that length — so
every requested order can be looked up. -/
theorem c10_bucket_keys (recs : List QueryRecord) (minN maxN : Nat)
    (h : (aggregate recs minN maxN).perf ≠ []) :
    (analyze_ngrams recs minN maxN).map Prod.fst = orderRange minN maxN
    ∧ ((analyze_ngrams recs minN maxN).map Prod.fst).Nodup
    ∧ (∀ n, minN ≤ n → n ≤ maxN →
        ∃ bucket, (n, bucket) ∈ analyze_ngrams recs minN maxN) := by
  have hmap : (analyze_ngrams recs minN maxN).map Prod.fst = orderRange minN maxN := by
    rw [analyze_ngrams, if_neg h, List.map_map]
    exact List.map_id _
  refine ⟨hmap, ?_, ?_⟩
  · rw [hmap, orderRange]
    exact List.nodup_range' _ _
  · intro n h1 h2
    rw [analyze_ngrams, if_neg h]
    exact ⟨_, List.mem_map.2 ⟨n, mem_orderRange.2 ⟨h1, h2⟩, rfl⟩⟩

/-- Witness for C10 at the scenario input aggregated over `[2, 3]`. -/
theorem c10_witness :
    ((aggregate [qA, qB] 2 3).perf ≠ [])
    ∧ ((analyze_ngrams [qA, qB] 2 3).map Prod.fst = orderRange 2 3
      ∧ ((analyze_ngrams [qA, qB] 2 3).map Prod.fst).Nodup
      ∧ (∀ n, 2 ≤ n → n ≤ 3 →
          ∃ bucket, (n, bucket) ∈ analyze_ngrams [qA, qB] 2 3)) :=
  ⟨by decide, c10_bucket_keys [qA, qB] 2 3 (by decide)⟩

end Advantage
